import Mathlib

/-!
Verification of the `track` path-tracker program (src/main.rs).

The program keeps a persisted registry of filesystem paths (a SQLite table
with a unique `path` BLOB column), walks the tracked roots with `walkdir`
skipping `.git` directories, and exports the matched regular files either to
a directory tree or to a gzipped tar archive.

The embedding below translates the source functions into executable Lean
definitions:

* paths are raw byte sequences (`Bytes = List Nat`), split into components
  (`FsPath`), mirroring the program's use of `OsStr::as_bytes`;
* the filesystem seen by a walk is an inductive tree `FsTree`, with a
  constructor for a directory whose contents cannot be read (the I/O error
  case of `walkdir`);
* fallible operations return `Except`, and whole-program outcomes are a
  `RunResult` that distinguishes a Rust panic (`crash`) from a recoverable
  `anyhow` error (`error`).
-/

/-- Raw byte strings: the program stores paths as `&[u8]` blobs. -/
abbrev Bytes := List Nat

/-- The bytes of the literal `".git"` (`OsStr::new(".git")` in the source). -/
def gitBytes : Bytes := [46, 103, 105, 116]

/-- File types distinguished by the program (`fs::FileType`): regular file,
directory, anything else (symlinks, sockets, ...). -/
inductive FType where
  | file
  | dir
  | other
deriving DecidableEq, Repr

/-- Abstract I/O errors (`std::io::Error` kinds the program can meet). -/
inductive IOErr where
  | notADirectory
  | permissionDenied
  | otherErr (code : Nat)
deriving DecidableEq, Repr

/-- A filesystem path, as the program sees it: an absolute flag plus the
list of components, each a raw byte string. `/x/a.txt` is
`⟨true, [[120], [97, ...]]⟩`. -/
structure FsPath where
  abs : Bool
  comps : List Bytes
deriving DecidableEq, Repr

/-- The filesystem subtree rooted at one directory entry. `unreadable` is a
directory whose contents cannot be listed (`read_dir` fails), the error case
exercised by walking. -/
inductive FsTree where
  | file (name : Bytes) (content : Bytes)
  | dir (name : Bytes) (children : List FsTree)
  | unreadable (name : Bytes)

/-- The entry name of a tree node (`DirEntry::file_name`). -/
def FsTree.name : FsTree → Bytes
  | .file n _ => n
  | .dir n _ => n
  | .unreadable n => n

/-- The file type of a tree node; an unreadable directory still reports
`dir` as its type (the type is known before its contents are read). -/
def FsTree.ftype : FsTree → FType
  | .file _ _ => .file
  | .dir _ _ => .dir
  | .unreadable _ => .dir

/-- The recoverable error values the program produces (`anyhow::Error`
with the contexts attached in the source: `matchErr root e` is
`err.context("error scanning path {root}")`). -/
inductive TrackErr where
  | matchErr (root : FsPath) (e : IOErr)
  | stripSlashErr
  | storageErr (code : Nat)
  | ioErr (e : IOErr)
  | exportErr (path : FsPath) (e : IOErr)
deriving DecidableEq, Repr

/-- Outcome of running a piece of the program: a Rust panic (`crash`, from
`expect`/`todo!`), a recoverable `anyhow` error, or a value. -/
inductive RunResult (α : Type) where
  | crash (msg : String)
  | error (e : TrackErr)
  | ok (a : α)
deriving DecidableEq, Repr

/-- `DirEntryAdapter::is_git_dir`:
`Ok(self.file_name() == OsStr::new(".git") && self.file_type()?.is_dir())`.
The `&&` short-circuits, so `file_type` (the fallible part, passed here as
`ftRes`) is only consulted when the name is `.git`. -/
def is_git_dir (name : Bytes) (ftRes : Except IOErr FType) : Except IOErr Bool :=
  if name = gitBytes then
    match ftRes with
    | .ok t => .ok (t = FType.dir)
    | .error e => .error e
  else .ok false

/-- `file_type` of the `walkdir::DirEntry` adapter: walkdir caches the file
type at read time, so the adapter always succeeds (`Ok(self.file_type())`). -/
def wdFileType (t : FType) : Except IOErr FType := Except.ok t

/-- The predicate closure passed to `filter_entry`:
`|d| !d.is_git_dir().expect("could not if detect .git directory")`.
An `Err` from `is_git_dir` would panic the process (`crash`); an `Ok` is
negated. -/
def notGitPred (name : Bytes) (ft : FType) : RunResult Bool :=
  match is_git_dir name (wdFileType ft) with
  | .ok b => .ok (!b)
  | .error _ => .crash "could not if detect .git directory"

/-- One item yielded by the walkdir iterator: a directory entry (with its
full path, name and type), or an `Err` raised while reading a directory. -/
inductive WalkItem where
  | entry (path : FsPath) (name : Bytes) (ftype : FType)
  | fail (e : IOErr)
deriving DecidableEq, Repr

/-- Extend a directory path by one component. -/
def childPath (parent : FsPath) (n : Bytes) : FsPath :=
  ⟨parent.abs, parent.comps ++ [n]⟩

mutual
/-- The items yielded by `WalkDir::new(...)` filtered through
`filter_entry(|d| !d.is_git_dir().expect(...))`, for the subtree `t` sitting
inside directory `parent`. walkdir yields each directory entry before its
contents; `filter_entry` applies the predicate to every entry — the walk
root included — and skips the entry and its whole subtree when the
predicate is false. Reading an unreadable directory yields the entry and
then an `Err` item (error items bypass the predicate). A panic inside the
predicate aborts the walk (`crash`). -/
def filteredWalk (parent : FsPath) (t : FsTree) : RunResult (List WalkItem) :=
  match t with
  | .file n _ =>
    match notGitPred n .file with
    | .crash m => .crash m
    | .error e => .error e
    | .ok false => .ok []
    | .ok true => .ok [.entry (childPath parent n) n .file]
  | .unreadable n =>
    match notGitPred n .dir with
    | .crash m => .crash m
    | .error e => .error e
    | .ok false => .ok []
    | .ok true => .ok [.entry (childPath parent n) n .dir, .fail .permissionDenied]
  | .dir n children =>
    match notGitPred n .dir with
    | .crash m => .crash m
    | .error e => .error e
    | .ok false => .ok []
    | .ok true =>
      match filteredWalkList (childPath parent n) children with
      | .crash m => .crash m
      | .error e => .error e
      | .ok items => .ok (.entry (childPath parent n) n .dir :: items)

/-- Walk a list of sibling subtrees in order, concatenating their items. -/
def filteredWalkList (parent : FsPath) (ts : List FsTree) : RunResult (List WalkItem) :=
  match ts with
  | [] => .ok []
  | t :: rest =>
    match filteredWalk parent t with
    | .crash m => .crash m
    | .error e => .error e
    | .ok items =>
      match filteredWalkList parent rest with
      | .crash m => .crash m
      | .error e => .error e
      | .ok items2 => .ok (items ++ items2)
end

/-- The root path handed to `WalkDir::new`: the walked subtree's own name
appended to its parent directory. -/
def rootOf (parent : FsPath) (t : FsTree) : FsPath := childPath parent t.name

/-- The consumer loop of `find_matches` for one root:
`let entry = entry.context("error scanning path {path}")?;
 if entry.file_type().is_file() { matches.push(entry.into_path()); }`.
The first `Err` item aborts with a `matchErr` naming the walk root. -/
def collectMatches (root : FsPath) : List WalkItem → Except TrackErr (List FsPath)
  | [] => .ok []
  | .fail e :: _ => .error (.matchErr root e)
  | .entry p _ ft :: rest =>
    match collectMatches root rest with
    | .error e => .error e
    | .ok ms => .ok (if ft = FType.file then p :: ms else ms)

/-- `find_matches(paths)`: walk each root in order with the `.git` filter,
abort on the first walk error, and collect the paths of regular-file
entries. A root is given as its parent directory plus the subtree found at
the root path. -/
def find_matches (roots : List (FsPath × FsTree)) : RunResult (List FsPath) :=
  match roots with
  | [] => .ok []
  | (parent, t) :: rest =>
    match filteredWalk parent t with
    | .crash m => .crash m
    | .error e => .error e
    | .ok items =>
      match collectMatches (rootOf parent t) items with
      | .error e => .error e
      | .ok ms =>
        match find_matches rest with
        | .crash m => .crash m
        | .error e => .error e
        | .ok ms2 => .ok (ms ++ ms2)

/-! ## The path registry (`PathsDB`)

`PathsDB` is backed by SQLite. The schema file `init.sql` is included at
compile time and is not part of the sources here; per the spec it creates a
single table with a unique `path` column holding raw bytes ("A uniqueness
constraint on the path column is required"). The SQL statements the source
issues against that table are modelled below: `rows` is the table content
in insertion (rowid) order, `sqlInsert` is
`INSERT INTO paths (path) VALUES (?)` failing with a constraint violation
on a duplicate (Modelled from the spec: the unique constraint of the
missing `init.sql`), `PathsDB.list` is
`SELECT path FROM paths ORDER BY path ASC` (SQLite orders BLOBs by
`memcmp`, i.e. bytewise lexicographically with the shorter prefix first),
and `PathsDB.rm` is `DELETE FROM paths WHERE path = ?`. -/

/-- SQLite-level errors surfaced to `PathsDB`. -/
inductive SqlErr where
  | constraintViolation
  | otherSql (code : Nat)
deriving DecidableEq, Repr

/-- The registry table: stored paths in insertion (rowid) order. -/
structure PathsDB where
  rows : List Bytes
deriving DecidableEq, Repr

/-- The empty registry (freshly created table). -/
def emptyDB : PathsDB := ⟨[]⟩

/-- `INSERT INTO paths (path) VALUES (?)`: appends the row, or fails with a
constraint violation when the unique `path` column already holds it. -/
def sqlInsert (db : PathsDB) (p : Bytes) : Except SqlErr PathsDB :=
  if p ∈ db.rows then .error .constraintViolation else .ok ⟨db.rows ++ [p]⟩

/-- `PathsDB::add`: runs the insert; a constraint violation is caught,
reported on stderr ("Path already in database!") and turned into `Ok(())`;
any other SQLite error becomes a fatal storage error. -/
def PathsDB.add (db : PathsDB) (p : Bytes) : Except TrackErr PathsDB :=
  match sqlInsert db p with
  | .ok db2 => .ok db2
  | .error .constraintViolation => .ok db
  | .error (.otherSql c) => .error (.storageErr c)

/-- Bytewise `memcmp`-style comparison used by SQLite to order BLOBs:
compare pointwise, the first differing byte decides, a strict prefix sorts
first. -/
def byteLe : Bytes → Bytes → Bool
  | [], _ => true
  | _ :: _, [] => false
  | a :: as, b :: bs => if a < b then true else if b < a then false else byteLe as bs

/-- `byteLe` as a decidable relation, for `List.insertionSort`. -/
def bleR (a b : Bytes) : Prop := byteLe a b = true

instance : DecidableRel bleR := fun a b => inferInstanceAs (Decidable (byteLe a b = true))

/-- `PathsDB::list`: `SELECT path FROM paths ORDER BY path ASC`, reading
each row's bytes back unchanged (`OsString::from_vec`). Modelled as sorting
the rows by the BLOB order. -/
def PathsDB.list (db : PathsDB) : List Bytes :=
  List.insertionSort bleR db.rows

/-- `PathsDB::rm`: `DELETE FROM paths WHERE path = ?` removes every row
equal to `p`. -/
def PathsDB.rm (db : PathsDB) (p : Bytes) : PathsDB :=
  ⟨db.rows.filter (fun q => q ≠ p)⟩

/-- A registry mutation issued by the `add`/`rm` commands. -/
inductive RegOp where
  | addOp (p : Bytes)
  | rmOp (p : Bytes)

/-- Apply one mutation. `PathsDB.add` only fails on a non-constraint
SQLite error, which the model's store never raises; the error branch keeps
the registry unchanged. -/
def applyOp (db : PathsDB) : RegOp → PathsDB
  | .addOp p =>
    match db.add p with
    | .ok db2 => db2
    | .error _ => db
  | .rmOp p => db.rm p

/-- Apply a sequence of mutations in order, starting from `db`. -/
def applyOps (ops : List RegOp) (db : PathsDB) : PathsDB :=
  match ops with
  | [] => db
  | op :: rest => applyOps rest (applyOp db op)

/-! ## Prune (`Args::Prune` arm of `main`) -/

/-- The loop body of the prune arm: over the listed paths in order, a path
that does not exist is reported ("Pruned {path}") and deleted from the
registry. `ex` is the filesystem's `Path::exists` oracle at call time. -/
def pruneLoop (ex : Bytes → Bool) (ps : List Bytes) (db : PathsDB) :
    PathsDB × List Bytes :=
  match ps with
  | [] => (db, [])
  | p :: rest =>
    if ex p then pruneLoop ex rest db
    else
      let step := pruneLoop ex rest (db.rm p)
      (step.1, p :: step.2)

/-- The prune arm: list the registry, then run the loop. Returns the final
registry and the reported (removed) paths in report order. -/
def prune (db : PathsDB) (ex : Bytes → Bool) : PathsDB × List Bytes :=
  pruneLoop ex db.list db

/-! ## Directory cleaning (`clean_dir`) -/

/-- `fs::remove_dir_all` applied to one directory child: succeeds on a
directory (removing its subtree), fails with `NotADirectory` on a regular
file (the call opens its argument as a directory), and fails with the
read error on a directory whose contents cannot be listed. -/
def remove_dir_all : FsTree → Except IOErr Unit
  | .file _ _ => .error .notADirectory
  | .dir _ _ => .ok ()
  | .unreadable _ => .error .permissionDenied

/-- `clean_dir(root)`: iterate the children of the destination; each child
that is not a `.git` directory is passed to `fs::remove_dir_all`, and any
error aborts the function. Returns the names of the removed children in
order. The `is_git_dir` check goes through the `fs::DirEntry` adapter,
whose `file_type` succeeded when producing the entry. -/
def clean_dir (children : List FsTree) : Except IOErr (List Bytes) :=
  match children with
  | [] => .ok []
  | c :: rest =>
    match is_git_dir c.name (.ok c.ftype) with
    | .error e => .error e
    | .ok true => clean_dir rest
    | .ok false =>
      match remove_dir_all c with
      | .error e => .error e
      | .ok _ =>
        match clean_dir rest with
        | .error e => .error e
        | .ok ns => .ok (c.name :: ns)

/-! ## Export (`export_dir`, `export_tar`, and the `Args::Export` arm) -/

/-- A matched file handed to the exporters: its absolute path and the bytes
of its content on disk. -/
structure MatchedFile where
  path : FsPath
  content : Bytes
deriving DecidableEq, Repr

/-- `mat.strip_prefix("/")`: an absolute path loses its leading separator
and becomes relative; a relative path makes the call fail (the `?` turns a
`StripPrefixError` into a fatal error). -/
def stripLeadingSlash (p : FsPath) : Except TrackErr FsPath :=
  if p.abs then .ok ⟨false, p.comps⟩ else .error .stripSlashErr

/-- `Path::join`: joining an absolute path replaces, otherwise the
components are appended. -/
def joinPath (a b : FsPath) : FsPath :=
  if b.abs then b else ⟨a.abs, a.comps ++ b.comps⟩

/-- `Path::parent`: drop the last component; the root `/` and the empty
path have no parent. -/
def parentPath (p : FsPath) : Option FsPath :=
  match p.comps with
  | [] => none
  | _ :: _ => some ⟨p.abs, p.comps.dropLast⟩

/-- A filesystem write performed by an export. -/
inductive FsWrite where
  | createFile (p : FsPath)
  | mkdirAll (p : FsPath)
  | copy (src dst : FsPath) (content : Bytes)
  | removeAll (name : Bytes)
  | appendTar (name : FsPath) (content : Bytes)
deriving DecidableEq, Repr

/-- `export_dir(root, matches)`: for each match in order, strip the leading
separator, join under `root`, create the intermediate directories
(`DirBuilder::recursive` on `new_path.parent().expect("new path has no
parent")` — a missing parent panics), then copy the bytes. Returns the
writes in order. -/
def export_dir (root : FsPath) (ms : List MatchedFile) : RunResult (List FsWrite) :=
  match ms with
  | [] => .ok []
  | m :: rest =>
    match stripLeadingSlash m.path with
    | .error e => .error e
    | .ok stem =>
      let newPath := joinPath root stem
      match parentPath newPath with
      | none => .crash "new path has no parent"
      | some par =>
        match export_dir root rest with
        | .crash msg => .crash msg
        | .error e => .error e
        | .ok ws => .ok (.mkdirAll par :: .copy m.path newPath m.content :: ws)

/-- `export_tar(root, matches)`: create the archive file at `root`, then
append each match under its stripped relative name
(`append_path_with_name(mat, mat.strip_prefix("/")?)`), streaming the
file's bytes. Returns the writes in order. -/
def export_tar (root : FsPath) (ms : List MatchedFile) : RunResult (List FsWrite) :=
  match tarAppends ms with
  | .error e => .error e
  | .ok ws => .ok (.createFile root :: ws)
where
  tarAppends : List MatchedFile → Except TrackErr (List FsWrite)
    | [] => .ok []
    | m :: rest =>
      match stripLeadingSlash m.path with
      | .error e => .error e
      | .ok stem =>
        match tarAppends rest with
        | .error e => .error e
        | .ok ws => .ok (.appendTar stem m.content :: ws)

/-- The export kinds of the command line (`ExportKind`). -/
inductive ExportKind where
  | dirKind
  | tarKind
  | zipKind
deriving DecidableEq, Repr

/-- The `Args::Export` arm of `main`: compute the matches from the tracked
roots, then dispatch on the kind. `dir` cleans the destination and copies;
`tar` writes the archive; `zip` is `todo!()`, which panics with "not yet
implemented" before touching the filesystem. The second component lists the
filesystem writes performed; on an error or panic the writes attempted
before the failure are not tracked (no claim depends on them). -/
def exportCmd (kind : ExportKind) (path : FsPath)
    (roots : List (FsPath × FsTree)) (destChildren : List FsTree)
    (content : FsPath → Bytes) : RunResult Unit × List FsWrite :=
  match find_matches roots with
  | .crash m => (.crash m, [])
  | .error e => (.error e, [])
  | .ok ms =>
    let mfs := ms.map (fun p => MatchedFile.mk p (content p))
    match kind with
    | .dirKind =>
      match clean_dir destChildren with
      | .error e => (.error (.ioErr e), [])
      | .ok removed =>
        match export_dir path mfs with
        | .crash m => (.crash m, removed.map FsWrite.removeAll)
        | .error e => (.error e, removed.map FsWrite.removeAll)
        | .ok ws => (.ok (), removed.map FsWrite.removeAll ++ ws)
    | .tarKind =>
      match export_tar path mfs with
      | .crash m => (.crash m, [])
      | .error e => (.error e, [])
      | .ok ws => (.ok (), ws)
    | .zipKind => (.crash "not yet implemented", [])

/-! ## Helper predicates on run results and walk items -/

/-- Whether a run outcome is a Rust panic. -/
def RunResult.isCrash : RunResult α → Bool
  | .crash _ => true
  | _ => false

/-- Whether a run outcome is a recoverable error value. -/
def RunResult.isError : RunResult α → Bool
  | .error _ => true
  | _ => false

/-- Whether a walk item stream contains an `Err` item. -/
def hasFailB (items : List WalkItem) : Bool :=
  items.any fun i =>
    match i with
    | .fail _ => true
    | _ => false

/-- Whether walking one root (with the `.git` filter) meets a read error. -/
def walkHasFail (parent : FsPath) (t : FsTree) : Bool :=
  match filteredWalk parent t with
  | .ok items => hasFailB items
  | _ => false

/-! ## Concrete values used by the claims -/

/-- Bytes of `"b.txt"`. -/
def bTxt : Bytes := [98, 46, 116, 120, 116]

/-- Bytes of `"c.txt"`. -/
def cTxt : Bytes := [99, 46, 116, 120, 116]

/-- Bytes of `"config"`. -/
def cfgBytes : Bytes := [99, 111, 110, 102, 105, 103]

/-- Bytes of `"root"`. -/
def rootBytes : Bytes := [114, 111, 111, 116]

/-- A root directory containing `a/b.txt`, `a/.git/config` and `c.txt`. -/
def c7Tree : FsTree :=
  FsTree.dir rootBytes
    [FsTree.dir [97] [FsTree.file bTxt [10], FsTree.dir gitBytes [FsTree.file cfgBytes [20]]],
     FsTree.file cTxt [30]]

/-- Number of entries of a path list equal to `p`. -/
def countB (p : Bytes) (l : List Bytes) : Nat :=
  (l.filter (fun q => q = p)).length

/-- Bytes of `"f.txt"`. -/
def fTxtBytes : Bytes := [102, 46, 116, 120, 116]

/-- The matched set `{/x/a.txt, /y/b.txt}` with one byte of content each. -/
def msC8 : List MatchedFile :=
  [⟨⟨true, [[120], [97, 46, 116, 120, 116]]⟩, [1]⟩, ⟨⟨true, [[121], bTxt]⟩, [2]⟩]

/-- Destination file `"/out.tgz"` for the archive export. -/
def destC8 : FsPath := ⟨true, [[111, 117, 116, 46, 116, 103, 122]]⟩

/-- Destination directory `"/out"` for the directory export. -/
def rootC8 : FsPath := ⟨true, [[111, 117, 116]]⟩

/-- The content oracle used by the concrete zip-export run. -/
def c2Content : FsPath → Bytes := fun _ => []


/-! ## Walk lemmas -/

/-- The `filter_entry` predicate never reaches its `expect`: the walkdir
adapter's `file_type` is infallible, so `is_git_dir` always returns `Ok`
and the predicate evaluates to the negated `.git`-directory test. -/
theorem notGitPred_eq (n : Bytes) (ft : FType) :
    notGitPred n ft = .ok (!(decide (n = gitBytes) && decide (ft = FType.dir))) := by
  unfold notGitPred is_git_dir wdFileType
  by_cases h : n = gitBytes <;> simp [h]

mutual
/-- Walking any subtree neither panics nor raises an error at walk level:
the stream of items is always produced (read failures sit inside the
stream as `fail` items). -/
theorem filteredWalk_total (parent : FsPath) (t : FsTree) :
    ∃ items, filteredWalk parent t = RunResult.ok items := by
  cases t with
  | file n c =>
    rw [filteredWalk, notGitPred_eq]
    cases (!(decide (n = gitBytes) && decide (FType.file = FType.dir))) with
    | false => exact ⟨[], rfl⟩
    | true => exact ⟨_, rfl⟩
  | unreadable n =>
    rw [filteredWalk, notGitPred_eq]
    cases (!(decide (n = gitBytes) && decide (FType.dir = FType.dir))) with
    | false => exact ⟨[], rfl⟩
    | true => exact ⟨_, rfl⟩
  | dir n children =>
    obtain ⟨items, hi⟩ := filteredWalkList_total (childPath parent n) children
    rw [filteredWalk, notGitPred_eq, hi]
    cases (!(decide (n = gitBytes) && decide (FType.dir = FType.dir))) with
    | false => exact ⟨[], rfl⟩
    | true => exact ⟨_, rfl⟩

/-- Walking a list of sibling subtrees always produces an item stream. -/
theorem filteredWalkList_total (parent : FsPath) (ts : List FsTree) :
    ∃ items, filteredWalkList parent ts = RunResult.ok items := by
  cases ts with
  | nil => exact ⟨[], rfl⟩
  | cons t rest =>
    obtain ⟨items1, h1⟩ := filteredWalk_total parent t
    obtain ⟨items2, h2⟩ := filteredWalkList_total parent rest
    rw [filteredWalkList, h1, h2]
    exact ⟨_, rfl⟩
end

/-- A directory named `.git` is pruned whole: its filtered walk is empty. -/
theorem filteredWalk_git_dir (parent : FsPath) (children : List FsTree) :
    filteredWalk parent (FsTree.dir gitBytes children) = RunResult.ok [] := by
  rw [filteredWalk, notGitPred_eq]
  simp

/-! ## `collectMatches` lemmas -/

/-- An error out of the match-collecting loop is always the contextualized
`matchErr` naming the walk root, and only happens on a failed item. -/
theorem collect_error_shape (root : FsPath) (items : List WalkItem) (e : TrackErr)
    (h : collectMatches root items = .error e) :
    (∃ io, e = TrackErr.matchErr root io) ∧ hasFailB items = true := by
  induction items with
  | nil => simp [collectMatches] at h
  | cons i rest ih =>
    cases i with
    | fail io =>
      rw [collectMatches] at h
      refine ⟨⟨io, ?_⟩, by simp [hasFailB]⟩
      cases h
      rfl
    | entry p n ft =>
      rw [collectMatches] at h
      cases hr : collectMatches root rest with
      | error e2 =>
        rw [hr] at h
        cases h
        obtain ⟨he, hf⟩ := ih hr
        exact ⟨he, by simp [hasFailB] at hf ⊢; exact hf⟩
      | ok ms => rw [hr] at h; cases h

/-- A successful match collection means the stream had no failed item. -/
theorem collect_ok_hasFail (root : FsPath) (items : List WalkItem) (ms : List FsPath)
    (h : collectMatches root items = .ok ms) : hasFailB items = false := by
  induction items generalizing ms with
  | nil => simp [hasFailB]
  | cons i rest ih =>
    cases i with
    | fail io => rw [collectMatches] at h; cases h
    | entry p n ft =>
      rw [collectMatches] at h
      cases hr : collectMatches root rest with
      | error e2 => rw [hr] at h; cases h
      | ok ms2 =>
        have := ih ms2 hr
        simp [hasFailB] at this ⊢
        exact this

/-- A failed item in the stream makes the collection abort with the
contextualized error. -/
theorem collect_fail_error (root : FsPath) (items : List WalkItem)
    (h : hasFailB items = true) :
    ∃ io, collectMatches root items = .error (TrackErr.matchErr root io) := by
  induction items with
  | nil => simp [hasFailB] at h
  | cons i rest ih =>
    cases i with
    | fail io => exact ⟨io, by rw [collectMatches]⟩
    | entry p n ft =>
      simp [hasFailB] at h
      obtain ⟨io, hio⟩ := ih (by simp [hasFailB]; exact h)
      exact ⟨io, by rw [collectMatches, hio]⟩

/-- Every collected match is the path of a regular-file entry of the
stream. -/
theorem collect_mem_file (root : FsPath) (items : List WalkItem) (ms : List FsPath)
    (h : collectMatches root items = .ok ms) (m : FsPath) (hm : m ∈ ms) :
    ∃ n, WalkItem.entry m n FType.file ∈ items := by
  induction items generalizing ms with
  | nil =>
    rw [collectMatches] at h
    cases h
    cases hm
  | cons i rest ih =>
    cases i with
    | fail io => rw [collectMatches] at h; cases h
    | entry p n ft =>
      rw [collectMatches] at h
      cases hr : collectMatches root rest with
      | error e2 => rw [hr] at h; cases h
      | ok ms2 =>
        rw [hr] at h
        cases h
        by_cases hft : ft = FType.file
        · subst hft
          simp at hm
          cases hm with
          | inl hpm => exact ⟨n, by simp [hpm]⟩
          | inr hmem =>
            obtain ⟨n2, hn2⟩ := ih ms2 hr hmem
            exact ⟨n2, by simp [hn2]⟩
        · simp [hft] at hm
          obtain ⟨n2, hn2⟩ := ih ms2 hr hm
          exact ⟨n2, by simp [hn2]⟩

/-! ## Claims about the matcher -/

/-- C1: for every sequence of tracked roots, `find_matches` never panics —
in particular the `expect` inside the `.git` exclusion predicate is
unreachable because the walkdir adapter's `file_type` cannot fail — and
when a walk error occurs (e.g. an unreadable subtree) it returns the
recoverable error contextualized with the offending root. -/
theorem find_matches_walk_error_recoverable (roots : List (FsPath × FsTree)) :
    (∀ m, find_matches roots ≠ RunResult.crash m) ∧
    (∀ e, find_matches roots = RunResult.error e →
      ∃ parent t io, (parent, t) ∈ roots ∧ walkHasFail parent t = true ∧
        e = TrackErr.matchErr (rootOf parent t) io) ∧
    ((∃ r ∈ roots, walkHasFail r.1 r.2 = true) →
      ∃ e, find_matches roots = RunResult.error e) := by
  induction roots with
  | nil =>
    refine ⟨?_, ?_, ?_⟩
    · intro m h
      simp [find_matches] at h
    · intro e h
      simp [find_matches] at h
    · intro h
      obtain ⟨r, hr, _⟩ := h
      cases hr
  | cons root rest ih =>
    obtain ⟨parent, t⟩ := root
    obtain ⟨items, hw⟩ := filteredWalk_total parent t
    cases hc : collectMatches (rootOf parent t) items with
    | error e0 =>
      have hres : find_matches ((parent, t) :: rest) = RunResult.error e0 := by
        simp only [find_matches, hw, hc]
      obtain ⟨⟨io, hio⟩, hfail⟩ := collect_error_shape _ _ _ hc
      refine ⟨?_, ?_, fun _ => ⟨e0, hres⟩⟩
      · intro m h
        rw [hres] at h
        simp at h
      · intro e h
        rw [hres] at h
        injection h with h2
        subst h2
        exact ⟨parent, t, io, List.mem_cons_self _ _,
          by simp only [walkHasFail, hw]; exact hfail, hio⟩
    | ok ms =>
      have hnofail : hasFailB items = false := collect_ok_hasFail _ _ _ hc
      cases hrest : find_matches rest with
      | crash m => exact absurd hrest (ih.1 m)
      | error e0 =>
        have hres : find_matches ((parent, t) :: rest) = RunResult.error e0 := by
          simp only [find_matches, hw, hc, hrest]
        obtain ⟨parent2, t2, io, hmem, hfail, he⟩ := ih.2.1 e0 hrest
        refine ⟨?_, ?_, fun _ => ⟨e0, hres⟩⟩
        · intro m h
          rw [hres] at h
          simp at h
        · intro e h
          rw [hres] at h
          injection h with h2
          subst h2
          exact ⟨parent2, t2, io, List.mem_cons_of_mem _ hmem, hfail, he⟩
      | ok ms2 =>
        have hres : find_matches ((parent, t) :: rest) = RunResult.ok (ms ++ ms2) := by
          simp only [find_matches, hw, hc, hrest]
        refine ⟨?_, ?_, ?_⟩
        · intro m h
          rw [hres] at h
          simp at h
        · intro e h
          rw [hres] at h
          simp at h
        · intro h
          obtain ⟨r, hr, hrf⟩ := h
          cases hr with
          | head =>
            simp only [walkHasFail, hw] at hrf
            rw [hnofail] at hrf
            cases hrf
          | tail _ hmem =>
            obtain ⟨e, he⟩ := ih.2.2 ⟨r, hmem, hrf⟩
            rw [hrest] at he
            simp at he

/-- C1 witness: a root whose directory cannot be read makes `find_matches`
return a recoverable error (and the walk of that root indeed failed). -/
theorem find_matches_walk_error_recoverable_witness :
    walkHasFail ⟨true, []⟩ (FsTree.unreadable [117]) = true ∧
    ∃ e, find_matches [(⟨true, []⟩, FsTree.unreadable [117])] = RunResult.error e :=
  ⟨by decide,
    (find_matches_walk_error_recoverable [(⟨true, []⟩, FsTree.unreadable [117])]).2.2
      ⟨(⟨true, []⟩, FsTree.unreadable [117]), by simp, by decide⟩⟩

/-- C10: a tracked root that is itself a directory named `.git` contributes
no matches at all: the exclusion predicate applies to the walk's root entry
too, so `find_matches` behaves as if the root were absent, and on that root
alone it returns the empty match list. -/
theorem find_matches_git_root_excluded (parent : FsPath) (children : List FsTree)
    (rest : List (FsPath × FsTree)) :
    find_matches ((parent, FsTree.dir gitBytes children) :: rest) = find_matches rest ∧
    find_matches [(parent, FsTree.dir gitBytes children)] = RunResult.ok [] := by
  constructor
  · simp only [find_matches, filteredWalk_git_dir, collectMatches]
    cases hrest : find_matches rest <;> simp
  · simp [find_matches, filteredWalk_git_dir, collectMatches]

/-- C7: on a root containing `a/b.txt`, `a/.git/config` and `c.txt`,
`find_matches` yields exactly `a/b.txt` and `c.txt`; in general a directory
named `.git` is pruned from descent entirely (its filtered walk is empty),
and every emitted match is the path of a regular-file entry of some root's
walk (directories and other types are never emitted). -/
theorem find_matches_git_excluded_only_files :
    find_matches [(⟨true, []⟩, c7Tree)] =
      RunResult.ok [⟨true, [rootBytes, [97], bTxt]⟩, ⟨true, [rootBytes, cTxt]⟩] ∧
    (∀ parent children, filteredWalk parent (FsTree.dir gitBytes children) = RunResult.ok []) ∧
    (∀ roots ms, find_matches roots = RunResult.ok ms → ∀ m ∈ ms,
      ∃ parent t items n, (parent, t) ∈ roots ∧
        filteredWalk parent t = RunResult.ok items ∧
        WalkItem.entry m n FType.file ∈ items) := by
  refine ⟨by decide, filteredWalk_git_dir, ?_⟩
  intro roots
  induction roots with
  | nil =>
    intro ms h m hm
    simp [find_matches] at h
    subst h
    cases hm
  | cons root rest ih =>
    intro ms h m hm
    obtain ⟨parent, t⟩ := root
    obtain ⟨items, hw⟩ := filteredWalk_total parent t
    simp only [find_matches, hw] at h
    cases hc : collectMatches (rootOf parent t) items with
    | error e0 =>
      simp only [hc] at h
      exact RunResult.noConfusion h
    | ok ms1 =>
      simp only [hc] at h
      cases hrest : find_matches rest with
      | crash m2 =>
        simp only [hrest] at h
        exact RunResult.noConfusion h
      | error e0 =>
        simp only [hrest] at h
        exact RunResult.noConfusion h
      | ok ms2 =>
        simp only [hrest] at h
        injection h with h2
        subst h2
        rcases List.mem_append.mp hm with hm1 | hm2
        · obtain ⟨n, hn⟩ := collect_mem_file _ _ _ hc m hm1
          exact ⟨parent, t, items, n, List.mem_cons_self _ _, hw, hn⟩
        · obtain ⟨parent2, t2, items2, n, hmem, hw2, hn⟩ := ih ms2 hrest m hm2
          exact ⟨parent2, t2, items2, n, List.mem_cons_of_mem _ hmem, hw2, hn⟩

/-- C7 witness: instantiating the only-files part at the concrete root for
the match `a/b.txt`. -/
theorem find_matches_git_excluded_only_files_witness :
    ∃ parent t items n, (parent, t) ∈ [((⟨true, []⟩ : FsPath), c7Tree)] ∧
      filteredWalk parent t = RunResult.ok items ∧
      WalkItem.entry ⟨true, [rootBytes, [97], bTxt]⟩ n FType.file ∈ items :=
  find_matches_git_excluded_only_files.2.2 [(⟨true, []⟩, c7Tree)]
    [⟨true, [rootBytes, [97], bTxt]⟩, ⟨true, [rootBytes, cTxt]⟩]
    find_matches_git_excluded_only_files.1
    ⟨true, [rootBytes, [97], bTxt]⟩ (by simp)

/-! ## Byte-order lemmas (SQLite BLOB ordering) -/

/-- `byteLe` is total. -/
theorem byteLe_total (a b : Bytes) : byteLe a b = true ∨ byteLe b a = true := by
  induction a generalizing b with
  | nil => left; rfl
  | cons x xs ih =>
    cases b with
    | nil => right; rfl
    | cons y ys =>
      rcases Nat.lt_trichotomy x y with h | h | h
      · left; simp [byteLe, h]
      · subst h
        rcases ih ys with h2 | h2
        · left; simp [byteLe, h2]
        · right; simp [byteLe, h2]
      · right; simp [byteLe, h]

/-- `byteLe` is transitive. -/
theorem byteLe_trans (a b c : Bytes) (hab : byteLe a b = true)
    (hbc : byteLe b c = true) : byteLe a c = true := by
  induction a generalizing b c with
  | nil => rfl
  | cons x xs ih =>
    cases b with
    | nil => simp [byteLe] at hab
    | cons y ys =>
      cases c with
      | nil => simp [byteLe] at hbc
      | cons z zs =>
        rcases Nat.lt_trichotomy x y with h1 | h1 | h1
        · rcases Nat.lt_trichotomy y z with h2 | h2 | h2
          · simp [byteLe, Nat.lt_trans h1 h2]
          · subst h2; simp [byteLe, h1]
          · simp [byteLe, Nat.lt_asymm h2, h2] at hbc
        · subst h1
          rcases Nat.lt_trichotomy x z with h2 | h2 | h2
          · simp [byteLe, h2]
          · subst h2
            simp [byteLe] at hab hbc ⊢
            exact ih ys zs hab hbc
          · simp [byteLe, Nat.lt_asymm h2, h2] at hbc
        · simp [byteLe, Nat.lt_asymm h1, h1] at hab

/-- A strict `byteLe` pair is lexicographically ordered in the usual
mathematical sense (`List.Lex` over `<` on byte values). -/
theorem byteLe_lex (a b : Bytes) (h : byteLe a b = true) (hne : a ≠ b) :
    List.Lex (· < ·) a b := by
  induction a generalizing b with
  | nil =>
    cases b with
    | nil => exact absurd rfl hne
    | cons y ys => exact List.Lex.nil
  | cons x xs ih =>
    cases b with
    | nil => simp [byteLe] at h
    | cons y ys =>
      rcases Nat.lt_trichotomy x y with h1 | h1 | h1
      · exact List.Lex.rel h1
      · subst h1
        have h2 : byteLe xs ys = true := by simpa [byteLe] using h
        have hne2 : xs ≠ ys := fun hh => hne (by rw [hh])
        exact List.Lex.cons (ih ys h2 hne2)
      · simp [byteLe, Nat.lt_asymm h1, h1] at h

/-! ## Registry invariants -/

/-- One registry mutation preserves row uniqueness (the `UNIQUE` constraint:
`add` refuses a duplicate, `rm` only removes). -/
theorem applyOp_nodup (db : PathsDB) (op : RegOp) (h : db.rows.Nodup) :
    (applyOp db op).rows.Nodup := by
  cases op with
  | addOp p =>
    by_cases hp : p ∈ db.rows
    · simp only [applyOp, PathsDB.add, sqlInsert, if_pos hp]
      exact h
    · simp only [applyOp, PathsDB.add, sqlInsert, if_neg hp]
      exact List.nodup_append.mpr ⟨h, List.nodup_singleton p,
        fun a ha hap => hp (by rwa [List.mem_singleton.mp hap] at ha)⟩
  | rmOp p => exact h.filter _

/-- Any mutation sequence preserves row uniqueness. -/
theorem applyOps_nodup (ops : List RegOp) (db : PathsDB) (h : db.rows.Nodup) :
    (applyOps ops db).rows.Nodup := by
  induction ops generalizing db with
  | nil => exact h
  | cons op rest ih => exact ih (applyOp db op) (applyOp_nodup db op h)

/-- A duplicate-free list containing `p` holds exactly one copy of it. -/
theorem countB_eq_one (l : List Bytes) (p : Bytes) (h : l.Nodup) (hp : p ∈ l) :
    countB p l = 1 := by
  induction l with
  | nil => cases hp
  | cons x xs ih =>
    rcases List.mem_cons.mp hp with hpx | hpx
    · subst hpx
      have hx : p ∉ xs := (List.nodup_cons.mp h).1
      have hfe : xs.filter (fun q => decide (q = p)) = [] :=
        List.filter_eq_nil_iff.mpr fun a ha hap => hx (by
          rwa [of_decide_eq_true hap] at ha)
      simp [countB, List.filter_cons, hfe]
    · have hxp : ¬(x = p) := fun hh => (List.nodup_cons.mp h).1 (hh ▸ hpx)
      have := ih (List.nodup_cons.mp h).2 hpx
      simpa [countB, List.filter_cons, hxp] using this

/-- Counting is invariant under permutation. -/
theorem countB_perm (p : Bytes) (l1 l2 : List Bytes) (h : l1.Perm l2) :
    countB p l1 = countB p l2 :=
  (h.filter _).length_eq

/-! ## Claims about the registry -/

/-- C5: from the empty registry, any sequence of add/remove operations
leaves `list()` strictly sorted in ascending bytewise lexicographic order;
`list()` contains exactly the tracked rows; the empty registry lists to the
empty sequence. -/
theorem pathsdb_list_sorted (ops : List RegOp) :
    ((applyOps ops emptyDB).list).Pairwise (fun a b => List.Lex (· < ·) a b) ∧
    (∀ p : Bytes, p ∈ (applyOps ops emptyDB).list ↔ p ∈ (applyOps ops emptyDB).rows) ∧
    emptyDB.list = [] := by
  haveI htot : IsTotal Bytes bleR := ⟨byteLe_total⟩
  haveI htrans : IsTrans Bytes bleR := ⟨byteLe_trans⟩
  have hperm : ((applyOps ops emptyDB).list).Perm (applyOps ops emptyDB).rows :=
    List.perm_insertionSort bleR (applyOps ops emptyDB).rows
  have hsorted : List.Sorted bleR (applyOps ops emptyDB).list :=
    List.sorted_insertionSort bleR (applyOps ops emptyDB).rows
  have hnd : (applyOps ops emptyDB).rows.Nodup :=
    applyOps_nodup ops emptyDB List.nodup_nil
  have hndl : ((applyOps ops emptyDB).list).Nodup := hperm.nodup_iff.mpr hnd
  refine ⟨?_, fun p => hperm.mem_iff, rfl⟩
  exact (List.Pairwise.and hsorted hndl).imp fun hab => byteLe_lex _ _ hab.1 hab.2

/-- C4: adding an already-present path is not fatal — both adds return
`Ok` — and afterwards `list()` holds exactly one entry equal to the path. -/
theorem pathsdb_add_duplicate_single_entry (db : PathsDB) (p : Bytes)
    (h : db.rows.Nodup) :
    ∃ db1 db2, db.add p = Except.ok db1 ∧ db1.add p = Except.ok db2 ∧
      countB p db2.list = 1 := by
  by_cases hp : p ∈ db.rows
  · refine ⟨db, db, ?_, ?_, ?_⟩
    · simp [PathsDB.add, sqlInsert, hp]
    · simp [PathsDB.add, sqlInsert, hp]
    · show countB p (List.insertionSort bleR db.rows) = 1
      rw [countB_perm p _ _ (List.perm_insertionSort bleR db.rows)]
      exact countB_eq_one _ _ h hp
  · have hmem : p ∈ db.rows ++ [p] := by simp
    refine ⟨⟨db.rows ++ [p]⟩, ⟨db.rows ++ [p]⟩, ?_, ?_, ?_⟩
    · simp [PathsDB.add, sqlInsert, hp]
    · simp [PathsDB.add, sqlInsert, hmem]
    · show countB p (List.insertionSort bleR (db.rows ++ [p])) = 1
      rw [countB_perm p _ _ (List.perm_insertionSort bleR (db.rows ++ [p]))]
      have hnd : (db.rows ++ [p]).Nodup :=
        List.nodup_append.mpr ⟨h, List.nodup_singleton p,
          fun a ha hap => hp (by rwa [List.mem_singleton.mp hap] at ha)⟩
      exact countB_eq_one _ _ hnd hmem

/-- C4 witness: the duplicate-add scenario on the empty registry. -/
theorem pathsdb_add_duplicate_single_entry_witness :
    ∃ db1 db2, emptyDB.add [47, 116] = Except.ok db1 ∧
      db1.add [47, 116] = Except.ok db2 ∧ countB [47, 116] db2.list = 1 :=
  pathsdb_add_duplicate_single_entry emptyDB [47, 116] List.nodup_nil

/-- C9: any byte sequence — UTF-8 or not — stored with `add` comes back
verbatim from `list`: the store never coerces paths through a lossy text
type. Concretely, the invalid-UTF-8 sequence `[255, 254, 0]` round-trips. -/
theorem pathsdb_roundtrip_bytes :
    (∀ (db : PathsDB) (p : Bytes), ∃ db2, db.add p = Except.ok db2 ∧ p ∈ db2.list) ∧
    emptyDB.add [255, 254, 0] = Except.ok ⟨[[255, 254, 0]]⟩ ∧
    PathsDB.list ⟨[[255, 254, 0]]⟩ = [[255, 254, 0]] := by
  refine ⟨?_, rfl, rfl⟩
  intro db p
  by_cases hp : p ∈ db.rows
  · refine ⟨db, by simp [PathsDB.add, sqlInsert, hp], ?_⟩
    exact ((List.perm_insertionSort bleR db.rows).mem_iff).mpr hp
  · refine ⟨⟨db.rows ++ [p]⟩, by simp [PathsDB.add, sqlInsert, hp], ?_⟩
    exact ((List.perm_insertionSort bleR (db.rows ++ [p])).mem_iff).mpr (by simp)

/-! ## Prune lemmas and claim -/

/-- Helper: two `PathsDB` values with the same rows are equal. -/
theorem pathsdb_eq (a b : PathsDB) (h : a.rows = b.rows) : a = b := by
  cases a
  cases b
  simpa using h

/-- The prune loop reports exactly the listed paths that do not exist, in
list order. -/
theorem pruneLoop_reported (ex : Bytes → Bool) (ps : List Bytes) (db : PathsDB) :
    (pruneLoop ex ps db).2 = ps.filter (fun p => !(ex p)) := by
  induction ps generalizing db with
  | nil => rfl
  | cons p rest ih =>
    by_cases hx : ex p = true
    · simp [pruneLoop, hx, ih]
    · have hxf : ex p = false := by simpa using hx
      simp [pruneLoop, hx, ih, hxf]

/-- The prune loop leaves exactly the rows that exist or were not listed. -/
theorem pruneLoop_rows (ex : Bytes → Bool) (ps : List Bytes) (db : PathsDB) :
    (pruneLoop ex ps db).1.rows = db.rows.filter (fun q => ex q || !(decide (q ∈ ps))) := by
  induction ps generalizing db with
  | nil => simp [pruneLoop]
  | cons p rest ih =>
    by_cases hx : ex p = true
    · rw [pruneLoop, if_pos hx, ih]
      apply List.filter_congr
      intro q hq
      by_cases hqp : q = p
      · subst hqp
        simp [hx]
      · simp [hqp]
    · rw [pruneLoop, if_neg hx]
      show (pruneLoop ex rest (db.rm p)).1.rows = _
      rw [ih]
      simp only [PathsDB.rm]
      rw [List.filter_filter]
      apply List.filter_congr
      intro q hq
      by_cases hqp : q = p
      · subst hqp
        have hxf : ex q = false := by simpa using hx
        simp [hxf]
      · simp [hqp]

/-- C6: `prune` reports exactly the tracked paths missing on disk (in list
order), keeps exactly the rows that exist, and is idempotent: a second
prune with the same filesystem state removes nothing and leaves the
registry unchanged. -/
theorem prune_exact_and_idempotent (db : PathsDB) (ex : Bytes → Bool) :
    (prune db ex).2 = db.list.filter (fun p => !(ex p)) ∧
    (prune db ex).1.rows = db.rows.filter (fun p => ex p) ∧
    (prune (prune db ex).1 ex).2 = [] ∧
    (prune (prune db ex).1 ex).1 = (prune db ex).1 := by
  have h2 : ∀ dbx : PathsDB, (prune dbx ex).1.rows = dbx.rows.filter (fun p => ex p) := by
    intro dbx
    rw [prune, pruneLoop_rows]
    apply List.filter_congr
    intro q hq
    have hql : q ∈ dbx.list :=
      ((List.perm_insertionSort bleR dbx.rows).mem_iff).mpr hq
    simp [hql]
  have h1 : ∀ dbx : PathsDB, (prune dbx ex).2 = dbx.list.filter (fun p => !(ex p)) := by
    intro dbx
    rw [prune, pruneLoop_reported]
  have hmem1 : ∀ p, p ∈ (prune db ex).1.rows → ex p = true := by
    intro p hp
    rw [h2 db] at hp
    exact (List.mem_filter.mp hp).2
  refine ⟨h1 db, h2 db, ?_, ?_⟩
  · rw [h1 _]
    apply List.filter_eq_nil_iff.mpr
    intro p hp
    have hpr : p ∈ (prune db ex).1.rows :=
      ((List.perm_insertionSort bleR (prune db ex).1.rows).mem_iff).mp hp
    simp [hmem1 p hpr]
  · apply pathsdb_eq
    rw [h2 _, List.filter_congr (fun q hq => ?_), List.filter_true]
    simp [hmem1 q hq]

/-! ## Cleaning claim (C3) -/

/-- C3 (failing input): `clean_dir` applies `fs::remove_dir_all` to every
non-`.git` child, and `remove_dir_all` fails with `NotADirectory` on a
regular file, so a destination holding a plain file child makes the
cleaning step error out instead of deleting the file. Directory children
are removed and a `.git` directory child is preserved as claimed. -/
theorem clean_dir_fails_on_regular_file_child :
    clean_dir [FsTree.file fTxtBytes [7]] = Except.error IOErr.notADirectory ∧
    clean_dir [FsTree.dir gitBytes [FsTree.file cfgBytes [1]]] = Except.ok [] ∧
    clean_dir [FsTree.dir [100] [FsTree.file [102] [1]], FsTree.dir gitBytes []] =
      Except.ok [[100]] := by
  refine ⟨rfl, rfl, rfl⟩

/-! ## Export claims (C8, C2) -/

/-- A path with at least one component has a parent: the same path minus
its last component. -/
theorem parentPath_ne_nil (p : FsPath) (h : p.comps ≠ []) :
    parentPath p = some ⟨p.abs, p.comps.dropLast⟩ := by
  obtain ⟨ab, comps⟩ := p
  cases comps with
  | nil => exact absurd rfl h
  | cons c cs => rfl

/-- Appending absolute matches to the archive names each one by its
component list with the leading separator stripped. -/
theorem tarAppends_maps (ms : List MatchedFile) (h : ∀ m ∈ ms, m.path.abs = true) :
    export_tar.tarAppends ms =
      Except.ok (ms.map (fun m => FsWrite.appendTar ⟨false, m.path.comps⟩ m.content)) := by
  induction ms with
  | nil => rfl
  | cons m rest ih =>
    have hm := h m (List.mem_cons_self _ _)
    simp only [export_tar.tarAppends, stripLeadingSlash, hm, if_true,
      ih (fun m2 hm2 => h m2 (List.mem_cons_of_mem _ hm2))]
    simp

/-- Directory export of absolute, non-root matches produces, per match in
order, a recursive mkdir of the destination parent and a byte copy to the
destination root joined with the stripped relative path. -/
theorem export_dir_maps (root : FsPath) (ms : List MatchedFile)
    (h : ∀ m ∈ ms, m.path.abs = true ∧ m.path.comps ≠ []) :
    export_dir root ms = RunResult.ok ((ms.map (fun m =>
      [FsWrite.mkdirAll ⟨root.abs, (root.comps ++ m.path.comps).dropLast⟩,
       FsWrite.copy m.path ⟨root.abs, root.comps ++ m.path.comps⟩ m.content])).flatten) := by
  induction ms with
  | nil => rfl
  | cons m rest ih =>
    obtain ⟨habs, hne⟩ := h m (List.mem_cons_self _ _)
    have hjoin : joinPath root ⟨false, m.path.comps⟩ =
        ⟨root.abs, root.comps ++ m.path.comps⟩ := by
      simp [joinPath]
    have hpar := parentPath_ne_nil ⟨root.abs, root.comps ++ m.path.comps⟩ (by
      intro hh
      exact hne (List.append_eq_nil.mp hh).2)
    simp only [export_dir, stripLeadingSlash, habs, if_true, hjoin, hpar,
      ih (fun m2 hm2 => h m2 (List.mem_cons_of_mem _ hm2))]
    simp

/-- C8: for any sequence of matched absolute file paths, the tar export
names every entry by the match's path relative to the filesystem root
(leading separator stripped) with the source bytes appended unchanged, and
the directory export copies every match to the destination root joined
with that stripped relative path, creating the intermediate directories
first. -/
theorem export_relative_paths (dest root : FsPath) (ms : List MatchedFile)
    (h : ∀ m ∈ ms, m.path.abs = true ∧ m.path.comps ≠ []) :
    export_tar dest ms = RunResult.ok (FsWrite.createFile dest ::
      ms.map (fun m => FsWrite.appendTar ⟨false, m.path.comps⟩ m.content)) ∧
    export_dir root ms = RunResult.ok ((ms.map (fun m =>
      [FsWrite.mkdirAll ⟨root.abs, (root.comps ++ m.path.comps).dropLast⟩,
       FsWrite.copy m.path ⟨root.abs, root.comps ++ m.path.comps⟩ m.content])).flatten) := by
  constructor
  · simp only [export_tar, tarAppends_maps ms (fun m hm => (h m hm).1)]
  · exact export_dir_maps root ms h

/-- C8 witness: the two exports on the concrete matched set
`{/x/a.txt, /y/b.txt}`. -/
theorem export_relative_paths_witness :
    export_tar destC8 msC8 = RunResult.ok (FsWrite.createFile destC8 ::
      msC8.map (fun m => FsWrite.appendTar ⟨false, m.path.comps⟩ m.content)) ∧
    export_dir rootC8 msC8 = RunResult.ok ((msC8.map (fun m =>
      [FsWrite.mkdirAll ⟨rootC8.abs, (rootC8.comps ++ m.path.comps).dropLast⟩,
       FsWrite.copy m.path ⟨rootC8.abs, rootC8.comps ++ m.path.comps⟩ m.content])).flatten) :=
  export_relative_paths destC8 rootC8 msC8 (by decide)

/-- C2 (counterexample): on the empty registry and destination `/out.tgz`,
requesting the zip export does not produce a recoverable error value — it
panics (`todo!()`, message "not yet implemented") — though it indeed
performs no filesystem writes. -/
theorem zip_export_panics_not_error :
    exportCmd ExportKind.zipKind destC8 [] [] c2Content =
      (RunResult.crash "not yet implemented", []) ∧
    (exportCmd ExportKind.zipKind destC8 [] [] c2Content).1.isError = false := by
  exact ⟨rfl, rfl⟩

/-- C2 (amended): for every registry/filesystem state and destination, zip
export performs no filesystem writes, and whenever matching succeeds it
terminates abruptly with the `todo!()` panic "not yet implemented" instead
of returning a recoverable `Unimplemented` error. -/
theorem zip_export_no_writes_and_panics (path : FsPath)
    (roots : List (FsPath × FsTree)) (dc : List FsTree) (content : FsPath → Bytes) :
    (exportCmd ExportKind.zipKind path roots dc content).2 = [] ∧
    (∀ ms, find_matches roots = RunResult.ok ms →
      (exportCmd ExportKind.zipKind path roots dc content).1 =
        RunResult.crash "not yet implemented") := by
  cases hfm : find_matches roots with
  | crash m =>
    refine ⟨by simp [exportCmd, hfm], ?_⟩
    intro ms h
    exact RunResult.noConfusion h
  | error e =>
    refine ⟨by simp [exportCmd, hfm], ?_⟩
    intro ms h
    exact RunResult.noConfusion h
  | ok ms0 =>
    refine ⟨by simp [exportCmd, hfm], ?_⟩
    intro ms h
    simp [exportCmd, hfm]

/-- C2 witness: the amended statement instantiated on the empty registry. -/
theorem zip_export_no_writes_and_panics_witness :
    (exportCmd ExportKind.zipKind destC8 [] [] c2Content).2 = [] ∧
    (exportCmd ExportKind.zipKind destC8 [] [] c2Content).1 =
      RunResult.crash "not yet implemented" :=
  ⟨(zip_export_no_writes_and_panics destC8 [] [] c2Content).1,
   (zip_export_no_writes_and_panics destC8 [] [] c2Content).2 [] rfl⟩
